import Mathlib

/-!
# Verification of the audio-upscaler STFT pipeline

A shallow embedding of the repository's core pipeline
(`audio_upscale/core/upscaler.py` and `audio_upscale/enhancers/spectral.py`)
over exact real and complex arithmetic, together with proofs and refutations
of the specified properties.

Conventions:
* numpy float arrays become `List ℝ`; complex spectra become `List ℂ`;
* floating-point arithmetic is modelled exactly over `ℝ`/`ℂ`, so
  "within floating-point tolerance" becomes exact equality;
* Python exceptions raised by numpy are modelled with `Except`;
* the mutable `_prev_magnitudes` field of `TransientEnhancer` and the
  in-place mutation of `self.enhancer_chain` are modelled by threading the
  enhancer chain through every call that the source lets mutate it.
-/

namespace AudioUpscale

noncomputable section

/-- The index list of the per-channel frame loop
`for i in range(0, len(padded_audio) - frame_size, hop_length)`
(`upscaler.py` line 146).  Python's `range(0, stop, step)` with `step > 0`
enumerates exactly the multiples of `step` that are `< stop`, in increasing
order; `stop` is `len(padded) - frame_size`, which, being negative in Python
when `frame_size > len(padded)`, yields the empty list exactly as truncated
subtraction does here. -/
def frameOffsets (L F H : ℕ) : List ℕ :=
  (List.range (L - F)).filter (fun o => o % H == 0)

/-- `np.pad(channel, (F, F), mode='reflect')` index arithmetic: the sample
at (possibly negative) position `p` of the reflect-extended signal is the
sample at index `reflectIdx L p` of the original length-`L` signal.
Reflection is edge-excluding with period `2*(L-1)`; a length-one signal is
extended constantly. -/
def reflectIdx (L : ℕ) (p : ℤ) : ℕ :=
  if L ≤ 1 then 0
  else
    let m := (p % (2 * ((L : ℤ) - 1))).toNat
    if m ≤ L - 1 then m else 2 * (L - 1) - m

/-- `np.pad(channel_data, (F, F), mode='reflect')` (`upscaler.py` line 137). -/
def reflectPad (xs : List ℝ) (F : ℕ) : List ℝ :=
  (List.range (xs.length + 2 * F)).map fun p : ℕ =>
    xs.getD (reflectIdx xs.length ((p : ℤ) - (F : ℤ))) 0

/-- `np.hanning(M)` and equally `scipy.signal.windows.hann(M)` (symmetric):
`w[n] = 0.5 - 0.5*cos(2*pi*n/(M-1))`, with the numpy special case
`hanning(1) = [1.0]`. -/
def hanningList (M : ℕ) : List ℝ :=
  if M = 1 then [1]
  else (List.range M).map fun n : ℕ =>
    1 / 2 - 1 / 2 * Real.cos (2 * Real.pi * (n : ℝ) / ((M : ℝ) - 1))

/-- `np.linspace(a, b, n)`: `n` evenly spaced values from `a` to `b`
inclusive; `linspace(a, b, 1) = [a]`. -/
def linspace (a b : ℝ) (n : ℕ) : List ℝ :=
  (List.range n).map fun i : ℕ =>
    if n ≤ 1 then a else a + (i : ℝ) * ((b - a) / ((n : ℝ) - 1))

/-- Map with the element index, starting from index `i`: the model of
numpy operations that touch an index-dependent slice of an array. -/
def idxMap (f : ℕ → ℝ → ℝ) : ℕ → List ℝ → List ℝ
  | _, [] => []
  | i, x :: xs => f i x :: idxMap f (i + 1) xs

/-- The noise-floor threshold of `_process_frame` (`upscaler.py` lines 58-59):
`noise_floor = np.mean(m[-len(m)//5:])` — the mean of the last
`⌈len(m)/5⌉` entries, since Python's `-n//5` floor-division equals
`-⌈n/5⌉` — multiplied by `(1 + noise_reduction * 3)`. -/
def noiseFloorThreshold (s : ℝ) (m : List ℝ) : ℝ :=
  let tail := m.drop (m.length - (m.length + 4) / 5)
  tail.sum / tail.length * (1 + s * 3)

/-- Noise-floor reduction stage (`upscaler.py` lines 57-60):
`mask = m > threshold; m = m * mask` with a boolean 0/1 mask. -/
def noiseFloorStage (s : ℝ) (m : List ℝ) : List ℝ :=
  m.map fun x => x * (if noiseFloorThreshold s m < x then 1 else 0)

/-- Harmonic-enhancement stage (`upscaler.py` lines 63-68):
`m[:hr] *= 1 + linspace(1.0, 0.1, hr) * harmonics_boost` with
`hr = len(m) // 2`. -/
def harmonicStage (b : ℝ) (m : List ℝ) : List ℝ :=
  let hr := m.length / 2
  let curve := linspace 1 (1 / 10) hr
  idxMap (fun i x => if i < hr then x * (1 + curve.getD i 0 * b) else x) 0 m

/-- Intensity scaling stage (`upscaler.py` line 71): `m * intensity`. -/
def intensityStage (k : ℝ) (m : List ℝ) : List ℝ :=
  m.map fun x => x * k

/-- Dynamic-range stage (`upscaler.py` lines 76-78):
`m = max(0, mean + (m - mean) * dynamic_boost)` elementwise. -/
def dynamicStage (f : ℝ) (m : List ℝ) : List ℝ :=
  let μ := m.sum / m.length
  m.map fun x => max 0 (μ + (x - μ) * f)

/-- Clarity stage (`upscaler.py` lines 83-85):
`m[len//8 : len//3] *= 1.2`. -/
def clarityStage (m : List ℝ) : List ℝ :=
  idxMap (fun i x => if m.length / 8 ≤ i ∧ i < m.length / 3 then x * (12 / 10) else x) 0 m

/-- First index of the maximum, i.e. `np.argmax`: scan left to right and
replace the champion only on a strictly greater value. -/
def argmaxIdx (l : List ℝ) : ℕ :=
  (List.range l.length).foldl (fun best j => if l.getD best 0 < l.getD j 0 then j else best) 0

/-- `l[s : s+len(fs)] *= fs`: in-place multiplication of a slice by an
equally long factor array. -/
def mulSlice (l : List ℝ) (s : ℕ) (fs : List ℝ) : List ℝ :=
  idxMap (fun i x => if s ≤ i ∧ i < s + fs.length then x * fs.getD (i - s) 1 else x) 0 l

/-- One iteration of `HarmonicEnhancer.process`'s harmonic loop
(`spectral.py` lines 62-76) for harmonic number `h`, boosting a
`np.hanning`-shaped window around `fund * h` when it is in range. -/
def harmonicApply (boost decay : ℝ) (n fund : ℕ) (acc : List ℝ) (h : ℕ) : List ℝ :=
  let hi := fund * h
  if hi < n then
    let b := boost * (1 / (h : ℝ) ^ decay)
    let ws := max 3 (min 5 (n / 1000))
    let s := hi - ws
    let e := min n (hi + ws + 1)
    let w := hanningList (e - s)
    mulSlice acc s (w.map fun wv => 1 + wv * (b - 1))
  else acc

/-- `HarmonicEnhancer.process` (`spectral.py` lines 50-78): find the loudest
bin among the first `min(len(m)//5, 100)` as the fundamental; when it is a
positive index, boost harmonics 2..7; phases are returned unchanged. -/
def harmonicProcess (boost decay : ℝ) (m p : List ℝ) : List ℝ × List ℝ :=
  let lower := min (m.length / 5) 100
  if 0 < lower ∧ 0 < argmaxIdx (m.take lower) then
    ([2, 3, 4, 5, 6, 7].foldl (harmonicApply boost decay m.length (argmaxIdx (m.take lower))) m, p)
  else (m, p)

/-- `SpectralWidener.process` (`spectral.py` lines 95-108): magnitudes are
unchanged; phases get `linspace(0, pi/4*(width-1), len(phases))` added. -/
def widenerProcess (width : ℝ) (m p : List ℝ) : List ℝ × List ℝ :=
  (m, List.zipWith (· + ·) p (linspace 0 (Real.pi / 4 * (width - 1)) p.length))

/-- `ExciterEnhancer.process` (`spectral.py` lines 125-147):
`tanh(m*drive)/drive`, then the band `[len//8, len//2)` is multiplied by
`1.1`; phases unchanged. -/
def exciterProcess (drive : ℝ) (m p : List ℝ) : List ℝ × List ℝ :=
  let em := m.map fun x => Real.tanh (x * drive) / drive
  (idxMap (fun i x => if em.length / 8 ≤ i ∧ i < em.length / 2 then x * (11 / 10) else x) 0 em, p)

/-- `TransientEnhancer.process` (`spectral.py` lines 165-191), with the
mutable `_prev_magnitudes` field passed in and returned explicitly.
With no history the frame passes through and the magnitudes are stored;
otherwise bins whose positive spectral flux strictly exceeds
`mean(flux)*(1 + sensitivity*5)` are multiplied by `attack_boost`, and the
(pre-boost) magnitudes become the new history. -/
def transientProcess (sens attack : ℝ) (prev : Option (List ℝ)) (m p : List ℝ) :
    List ℝ × List ℝ × Option (List ℝ) :=
  match prev with
  | none => (m, p, some m)
  | some pm =>
    let posFlux := (List.zipWith (· - ·) m pm).map (max 0)
    let thr := posFlux.sum / posFlux.length * (1 + sens * 5)
    let boost := posFlux.map fun fx => 1 + (if thr < fx then 1 else 0) * (attack - 1)
    (List.zipWith (· * ·) m boost, p, some m)

/-- The closed set of enhancer variants of `spectral.py`.  Constructor
fields are the `__init__` parameters that `process` reads (the unused
`preserve_phases`, `focus_region` and `freq_range` fields are omitted);
the `transient` variant additionally carries its mutable
`_prev_magnitudes` state. -/
inductive Enhancer
  | harmonic (harmonic_boost harmonic_decay : ℝ)
  | widener (width : ℝ)
  | exciter (drive : ℝ)
  | transient (sensitivity attack_boost : ℝ) (prev : Option (List ℝ))

/-- Polymorphic `process(magnitudes, phases)` dispatch; the returned
`Enhancer` is the instance after the call (only `transient` mutates). -/
def Enhancer.process : Enhancer → List ℝ → List ℝ → List ℝ × List ℝ × Enhancer
  | harmonic b d, m, p => ((harmonicProcess b d m p).1, (harmonicProcess b d m p).2, harmonic b d)
  | widener w, m, p => ((widenerProcess w m p).1, (widenerProcess w m p).2, widener w)
  | exciter dr, m, p => ((exciterProcess dr m p).1, (exciterProcess dr m p).2, exciter dr)
  | transient s a st, m, p =>
    let r := transientProcess s a st m p
    (r.1, r.2.1, transient s a r.2.2)

/-- `apply_enhancer_chain` (`spectral.py` lines 232-252): fold the chain
over the magnitude/phase pair; the updated enhancer instances are returned
alongside, modelling their in-place mutation. -/
def applyEnhancerChain : List ℝ → List ℝ → List Enhancer → List ℝ × List ℝ × List Enhancer
  | m, p, [] => (m, p, [])
  | m, p, e :: rest =>
    let r := e.process m p
    let rr := applyEnhancerChain r.1 r.2.1 rest
    (rr.1, rr.2.1, r.2.2 :: rr.2.2)

/-- Bin `k` of the discrete Fourier transform of a real signal:
`sum_n x[n] * exp(-2*pi*i*k*n/N)`.  `np.fft.rfft` returns exactly the bins
`k = 0 .. N//2` of this sum. -/
def rfftBin (xs : List ℝ) (k : ℕ) : ℂ :=
  ∑ n ∈ Finset.range xs.length,
    (xs.getD n 0 : ℂ) * Complex.exp (-(2 * Real.pi * Complex.I) * (k * n) / xs.length)

/-- `np.fft.rfft(frame)`: the half spectrum, bins `0 .. len(frame)//2`. -/
def rfft (xs : List ℝ) : List ℂ :=
  (List.range (xs.length / 2 + 1)).map (rfftBin xs)

/-- The Hermitian extension `np.fft.irfft` applies to its length-`M+1`
input to recover a full length-`N` spectrum: bins beyond the stored half
are the conjugates of their mirror bins. -/
def hermBin (ys : List ℂ) (N k : ℕ) : ℂ :=
  if k < ys.length then ys.getD k 0 else (starRingEnd ℂ) (ys.getD (N - k) 0)

/-- `np.fft.irfft(ys)` with the default output length `2*(len(ys)-1)`:
the real part of the inverse discrete Fourier transform of the Hermitian
extension, with the backward `1/N` normalisation. -/
def irfft (ys : List ℂ) : List ℝ :=
  let N := 2 * (ys.length - 1)
  (List.range N).map fun m : ℕ =>
    (((N : ℂ))⁻¹ *
      ∑ k ∈ Finset.range N,
        hermBin ys N k * Complex.exp (2 * Real.pi * Complex.I * ((k : ℂ) * (m : ℂ)) / N)).re

/-- The forward analysis of `_process_frame` (`upscaler.py` lines 48-50):
`fft = np.fft.rfft(frame); magnitudes = np.abs(fft); phases = np.angle(fft)`. -/
def analyze (frame : List ℝ) : List ℝ × List ℝ :=
  ((rfft frame).map Complex.abs, (rfft frame).map Complex.arg)

/-- The synthesis of `_process_frame` (`upscaler.py` lines 93-94):
`np.fft.irfft(magnitudes * np.exp(1j * phases))`. -/
def synthesize (s : List ℝ × List ℝ) : List ℝ :=
  irfft (List.zipWith (fun mag ph : ℝ => (mag : ℂ) * Complex.exp (Complex.I * (ph : ℂ)))
    s.1 s.2)

/-- The `AudioUpscaler` configuration stored by `__init__`
(`upscaler.py` lines 25-43).  The `enhancer_chain` field is kept separate
because the pipeline mutates it; it is threaded explicitly below. -/
structure UpscalerParams where
  intensity : ℝ
  harmonics_boost : ℝ
  noise_reduction : ℝ
  dynamic_boost : ℝ
  clarity_enhance : Bool

/-- `AudioUpscaler._process_frame` (`upscaler.py` lines 45-96): analysis,
the five built-in conditional stages in their fixed order, the enhancer
chain, and synthesis.  Returns the reconstructed frame and the
possibly-mutated chain. -/
def processFrame (u : UpscalerParams) (chain : List Enhancer) (frame : List ℝ) :
    List ℝ × List Enhancer :=
  let mags := (rfft frame).map Complex.abs
  let phases := (rfft frame).map Complex.arg
  let m1 := if 0 < u.noise_reduction then noiseFloorStage u.noise_reduction mags else mags
  let m2 := if 0 < u.harmonics_boost then harmonicStage u.harmonics_boost m1 else m1
  let m3 := intensityStage u.intensity m2
  let m4 := if u.dynamic_boost ≠ 1 then dynamicStage u.dynamic_boost m3 else m3
  let m5 := if u.clarity_enhance then clarityStage m4 else m4
  let r := if chain.isEmpty then (m5, phases, chain) else applyEnhancerChain m5 phases chain
  (irfft (List.zipWith (fun mag ph : ℝ => (mag : ℂ) * Complex.exp (Complex.I * (ph : ℂ)))
      r.1 r.2.1),
    r.2.2)

/-- `np.max(np.abs(l))`, with `0` for the empty list. -/
def maxAbs (l : List ℝ) : ℝ :=
  l.foldr (fun x acc => max |x| acc) 0

/-- Elementwise addition of `vs` into the prefix of `acc`, keeping the
length of `acc`. -/
def addInto : List ℝ → List ℝ → List ℝ
  | acc, [] => acc
  | [], _ => []
  | a :: acc, v :: vs => (a + v) :: addInto acc vs

/-- `acc[i : i+len(vs)] += vs`: the overlap-add accumulation
`enhanced_audio[i:i+frame_size] += windowed_frame` of `upscaler.py`
line 151. -/
def addAt (acc : List ℝ) (i : ℕ) (vs : List ℝ) : List ℝ :=
  acc.take i ++ addInto (acc.drop i) vs

/-- One iteration of the frame loop of `_process_channel`
(`upscaler.py` lines 146-151): slice the frame at offset `i`, process it,
window it with the Hann window and overlap-add it into the accumulator. -/
def channelStep (u : UpscalerParams) (F : ℕ) (padded : List ℝ)
    (st : List ℝ × List Enhancer) (i : ℕ) : List ℝ × List Enhancer :=
  let r := processFrame u st.2 ((padded.drop i).take F)
  (addAt st.1 i (List.zipWith (· * ·) r.1 (hanningList F)), r.2)

/-- The padding, zero accumulator and frame loop of `_process_channel`
(`upscaler.py` lines 135-151). -/
def channelAccum (u : UpscalerParams) (chain : List Enhancer) (xs : List ℝ) (F H : ℕ) :
    List ℝ × List Enhancer :=
  let padded := reflectPad xs F
  (frameOffsets padded.length F H).foldl (channelStep u F padded)
    (List.replicate padded.length 0, chain)

/-- `_process_channel` up to (and excluding) the final peak normalisation
(`upscaler.py` lines 135-162): accumulate, divide by
`num_overlaps = frame_size // hop_length`, and strip the padding. -/
def channelBeforeNorm (u : UpscalerParams) (chain : List Enhancer) (xs : List ℝ) (F H : ℕ) :
    List ℝ × List Enhancer :=
  let r := channelAccum u chain xs F H
  let divided := r.1.map fun x => x / ((F / H : ℕ) : ℝ)
  ((divided.take (divided.length - F)).drop F, r.2)

/-- `AudioUpscaler._process_channel` (`upscaler.py` lines 133-172),
including the final peak normalisation: when the peak exceeds `0`, scale
by `0.95 / peak`. -/
def processChannel (u : UpscalerParams) (chain : List Enhancer) (xs : List ℝ) (F H : ℕ) :
    List ℝ × List Enhancer :=
  let r := channelBeforeNorm u chain xs F H
  let mv := maxAbs r.1
  (if 0 < mv then r.1.map fun x => x * (19 / 20 / mv) else r.1, r.2)

/-- The stereo branch of `AudioUpscaler.process_audio`
(`upscaler.py` lines 115-127): the left channel is processed first, the
right channel second — with whatever enhancer-chain state the left run
left behind, since the source reuses `self.enhancer_chain` — and the
results are recombined column-wise (`np.column_stack`). -/
def processAudioStereo (u : UpscalerParams) (chain : List Enhancer)
    (left right : List ℝ) (F H : ℕ) : List (ℝ × ℝ) × List Enhancer :=
  let l := processChannel u chain left F H
  let r := processChannel u l.2 right F H
  (l.1.zip r.1, r.2)

/-- The exceptions the modelled pipeline can raise. -/
inductive PyError
  | negativePadWidth
deriving DecidableEq

/-- `AudioUpscaler.__init__` (`upscaler.py` lines 25-43): the body only
stores the parameters; it contains no validation and cannot raise, so the
result is always `Except.ok`. -/
def mkAudioUpscaler (intensity harmonics_boost noise_reduction dynamic_boost : ℝ)
    (clarity_enhance : Bool) : Except PyError UpscalerParams :=
  .ok ⟨intensity, harmonics_boost, noise_reduction, dynamic_boost, clarity_enhance⟩

/-- `_process_channel` with an `int` frame size, as callable from Python:
`np.pad` raises `ValueError` on a negative pad width (the pad width is the
frame size, `upscaler.py` lines 136-137) before the frame loop runs. -/
def processChannelChecked (u : UpscalerParams) (chain : List Enhancer) (xs : List ℝ)
    (F : ℤ) (H : ℕ) : Except PyError (List ℝ) :=
  if F < 0 then .error .negativePadWidth
  else .ok (processChannel u chain xs F.toNat H).1

/-- All entries of a list are non-negative: the magnitude invariant of the
spec's data model. -/
def nonnegL (l : List ℝ) : Prop := ∀ x ∈ l, 0 ≤ x

/-! ## Helper lemmas -/

theorem zipWith_sub_self (m : List ℝ) :
    List.zipWith (· - ·) m m = List.replicate m.length (0 : ℝ) := by
  induction m with
  | nil => rfl
  | cons x xs ih => simp [ih, List.replicate_succ]

theorem zipWith_mul_replicate_one (m : List ℝ) :
    List.zipWith (· * ·) m (List.replicate m.length (1 : ℝ)) = m := by
  induction m with
  | nil => rfl
  | cons x xs ih => simp [ih, List.replicate_succ]

/-! ## C10: the empty enhancer chain is the identity -/

/-- C10: `apply_enhancer_chain(magnitudes, phases, [])` returns exactly the
input magnitudes and phases unchanged (and no enhancer state). -/
theorem applyEnhancerChain_nil_id (m p : List ℝ) :
    applyEnhancerChain m p [] = (m, p, []) := rfl

/-! ## C7: the transient enhancer on the first frame and on identical frames -/

/-- C7: the transient enhancer passes its first frame through unchanged and
stores the magnitudes as history; on the second of two identical frames the
spectral flux is zero, no bin exceeds the zero threshold, and the
magnitudes are again returned unchanged. -/
theorem transient_first_frame_and_identical_frames (s a : ℝ) (m p : List ℝ) :
    transientProcess s a none m p = (m, p, some m) ∧
    transientProcess s a (some m) m p = (m, p, some m) := by
  refine ⟨rfl, ?_⟩
  have hflux : (List.zipWith (· - ·) m m).map (max 0) = List.replicate m.length (0 : ℝ) := by
    rw [zipWith_sub_self, List.map_replicate]
    simp
  simp only [transientProcess, hflux, List.sum_replicate, smul_zero, zero_div, zero_mul,
    List.map_replicate, List.length_replicate]
  norm_num
  exact zipWith_mul_replicate_one m

/-! ## C4: which offsets the frame loop processes -/

/-- C4 (amended): for positive hop, the frame loop processes exactly the
offsets that are multiples of the hop length and at which *strictly more
than* `frame_size` samples remain (`o + F < L`); the offset at which
exactly `frame_size` samples remain is excluded, because Python's
`range(0, L - F, H)` stops before its bound. -/
theorem mem_frameOffsets_iff (L F H o : ℕ) (hH : 0 < H) :
    o ∈ frameOffsets L F H ↔ H ∣ o ∧ o + F < L := by
  unfold frameOffsets
  simp only [List.mem_filter, List.mem_range, beq_iff_eq]
  constructor
  · rintro ⟨ho, hmod⟩
    exact ⟨Nat.dvd_of_mod_eq_zero hmod, lt_tsub_iff_right.mp ho⟩
  · rintro ⟨hdvd, hlt⟩
    obtain ⟨c, rfl⟩ := hdvd
    exact ⟨lt_tsub_iff_right.mpr hlt, Nat.mul_mod_right H c⟩

/-- Witness for `mem_frameOffsets_iff` at a concrete instance. -/
theorem mem_frameOffsets_iff_witness : 6 ∈ frameOffsets 12 4 2 :=
  (mem_frameOffsets_iff 12 4 2 6 (by decide)).mpr (by decide)

/-- C4 counterexample: with `len(padded) = 12`, `frame_size = 4`,
`hop = 2`, offset `8` is a multiple of the hop with exactly `frame_size`
samples remaining (`8 + 4 ≤ 12`), yet the loop does not process it. -/
theorem frameOffsets_skips_exact_fit : ¬ 8 ∈ frameOffsets 12 4 2 ∧ 2 ∣ 8 ∧ 8 + 4 ≤ 12 := by
  decide

/-! ## C3: parameter validation -/

/-- C3 (amended): the code performs no parameter validation.  Construction
always succeeds, storing the parameters verbatim; a negative frame size is
rejected only once a processing run reaches the `np.pad` call, which
raises on a negative pad width (before the frame loop but after
construction and after the run has started). -/
theorem no_construction_validation (u : UpscalerParams) (chain : List Enhancer)
    (xs : List ℝ) (H : ℕ) (F : ℤ) (hF : F < 0) :
    (∀ i h n d c, mkAudioUpscaler i h n d c = .ok ⟨i, h, n, d, c⟩) ∧
    processChannelChecked u chain xs F H = .error .negativePadWidth :=
  ⟨fun _ _ _ _ _ => rfl, by simp [processChannelChecked, hF]⟩

/-- Witness for `no_construction_validation` at a concrete instance. -/
theorem no_construction_validation_witness :
    mkAudioUpscaler (-1) 0 0 0 false = .ok ⟨-1, 0, 0, 0, false⟩ ∧
    processChannelChecked ⟨3/2, 3/10, 1/5, 6/5, true⟩ [] [1, 1] (-4) 1
      = .error .negativePadWidth :=
  ⟨(no_construction_validation ⟨3/2, 3/10, 1/5, 6/5, true⟩ [] [1, 1] 1 (-4)
      (by norm_num)).1 (-1) 0 0 0 false,
    (no_construction_validation ⟨3/2, 3/10, 1/5, 6/5, true⟩ [] [1, 1] 1 (-4)
      (by norm_num)).2⟩

/-! ## C8: the noise-floor stage, pointwise -/

/-- C8: with positive strength, the noise-floor stage keeps the length,
averages exactly the top `⌈n/5⌉` bins (the highest-frequency fifth) into
the threshold `floor * (1 + 3*strength)`, zeroes every bin whose magnitude
does not strictly exceed that threshold and keeps every other bin
unchanged. -/
theorem noiseFloorStage_pointwise (s : ℝ) (m : List ℝ) (hs : 0 < s) (i : ℕ)
    (hi : i < m.length) :
    (noiseFloorStage s m).length = m.length ∧
    (m.drop (m.length - (m.length + 4) / 5)).length = (m.length + 4) / 5 ∧
    (noiseFloorStage s m).getD i 0 =
      if noiseFloorThreshold s m < m.getD i 0 then m.getD i 0 else 0 := by
  refine ⟨by simp [noiseFloorStage], ?_, ?_⟩
  · rw [List.length_drop]
    omega
  · unfold noiseFloorStage
    rw [List.getD_eq_getElem _ _ (by simpa using hi), List.getElem_map,
      List.getD_eq_getElem _ _ hi]
    by_cases h : noiseFloorThreshold s m < m[i]
    · simp [h]
    · simp [h]

/-- Witness for `noiseFloorStage_pointwise`: `strength = 1`,
`m = [1,2,3,4,5]`; the floor is the mean of the top fifth `[5]`, the
threshold is `5 * (1+3) = 20`, and bin 0 (`= 1 ≤ 20`) is zeroed. -/
theorem noiseFloorStage_pointwise_witness :
    (noiseFloorStage 1 [(1 : ℝ), 2, 3, 4, 5]).getD 0 0 = 0 := by
  have h := noiseFloorStage_pointwise 1 [(1 : ℝ), 2, 3, 4, 5] (by norm_num) 0 (by norm_num)
  rw [h.2.2, if_neg]
  norm_num [noiseFloorThreshold]

/-! ## C9: non-negativity of magnitudes through every stage -/

theorem getD_nonneg {l : List ℝ} {d : ℝ} (hl : nonnegL l) (hd : 0 ≤ d) (k : ℕ) :
    0 ≤ l.getD k d := by
  by_cases hk : k < l.length
  · rw [List.getD_eq_getElem _ _ hk]
    exact hl _ (l.getElem_mem hk)
  · rw [List.getD_eq_default _ _ (le_of_not_lt hk)]
    exact hd

theorem mem_idxMap {f : ℕ → ℝ → ℝ} {x : ℝ} :
    ∀ {i : ℕ} {l : List ℝ}, x ∈ idxMap f i l → ∃ j y, y ∈ l ∧ x = f j y := by
  intro i l
  induction l generalizing i with
  | nil => intro h; cases h
  | cons a as ih =>
    intro h
    rcases List.mem_cons.mp h with h | h
    · exact ⟨i, a, List.mem_cons_self a as, h⟩
    · obtain ⟨j, y, hy, hx⟩ := ih h
      exact ⟨j, y, List.mem_cons_of_mem a hy, hx⟩

theorem nonnegL_idxMap {f : ℕ → ℝ → ℝ} (hf : ∀ j x, 0 ≤ x → 0 ≤ f j x)
    {l : List ℝ} (hl : nonnegL l) (i : ℕ) : nonnegL (idxMap f i l) := by
  intro x hx
  obtain ⟨j, y, hy, rfl⟩ := mem_idxMap hx
  exact hf j y (hl y hy)

theorem nonnegL_zipWith_mul {l₁ l₂ : List ℝ} (h₁ : nonnegL l₁) (h₂ : nonnegL l₂) :
    nonnegL (List.zipWith (· * ·) l₁ l₂) := by
  induction l₁ generalizing l₂ with
  | nil => intro x hx; cases hx
  | cons a as ih =>
    cases l₂ with
    | nil => intro x hx; cases hx
    | cons b bs =>
      intro x hx
      rcases List.mem_cons.mp hx with h | h
      · subst h
        exact mul_nonneg (h₁ a (List.mem_cons_self _ _)) (h₂ b (List.mem_cons_self _ _))
      · exact ih (fun y hy => h₁ y (List.mem_cons_of_mem _ hy))
          (fun y hy => h₂ y (List.mem_cons_of_mem _ hy)) x h

theorem linspace_boost_curve_nonneg (n : ℕ) : nonnegL (linspace 1 (1 / 10) n) := by
  intro x hx
  unfold linspace at hx
  obtain ⟨i, hi, rfl⟩ := List.mem_map.mp hx
  rw [List.mem_range] at hi
  by_cases hn : n ≤ 1
  · simp [hn]
  · rw [if_neg hn]
    have hc : (1 : ℝ) ≤ (n : ℝ) - 1 := by
      have : (2 : ℕ) ≤ n := by omega
      have : (2 : ℝ) ≤ (n : ℝ) := by exact_mod_cast this
      linarith
    have hi' : (i : ℝ) ≤ (n : ℝ) - 1 := by
      have : (i : ℝ) ≤ (n : ℝ) - 1 ↔ (i : ℝ) + 1 ≤ (n : ℝ) := by constructor <;> intro <;> linarith
      rw [this]
      exact_mod_cast Nat.succ_le_of_lt hi
    have hq : (i : ℝ) / ((n : ℝ) - 1) ≤ 1 := div_le_one_of_le hi' (by linarith)
    have hq0 : 0 ≤ (i : ℝ) / ((n : ℝ) - 1) := div_nonneg (Nat.cast_nonneg i) (by linarith)
    have hrw : 1 + (i : ℝ) * ((1 / 10 - 1) / ((n : ℝ) - 1))
        = 1 - 9 / 10 * ((i : ℝ) / ((n : ℝ) - 1)) := by ring
    rw [hrw]
    nlinarith

theorem hanningList_mem_bounds (M : ℕ) : ∀ x ∈ hanningList M, 0 ≤ x ∧ x ≤ 1 := by
  intro x hx
  unfold hanningList at hx
  by_cases hM : M = 1
  · rw [if_pos hM] at hx
    rcases List.mem_singleton.mp hx with rfl
    norm_num
  · rw [if_neg hM] at hx
    obtain ⟨n, _, rfl⟩ := List.mem_map.mp hx
    have h1 := Real.neg_one_le_cos (2 * Real.pi * n / ((M : ℝ) - 1))
    have h2 := Real.cos_le_one (2 * Real.pi * n / ((M : ℝ) - 1))
    constructor <;> linarith

theorem mulSlice_nonneg {l fs : List ℝ} (hl : nonnegL l) (hfs : nonnegL fs) (s : ℕ) :
    nonnegL (mulSlice l s fs) := by
  unfold mulSlice
  refine nonnegL_idxMap (fun j x hx => ?_) hl 0
  by_cases h : s ≤ j ∧ j < s + fs.length
  · rw [if_pos h]
    exact mul_nonneg hx (getD_nonneg hfs zero_le_one _)
  · rwa [if_neg h]

theorem harmonicApply_nonneg {boost decay : ℝ} (hb : 0 ≤ boost) (n fund : ℕ)
    {acc : List ℝ} (hacc : nonnegL acc) (h : ℕ) :
    nonnegL (harmonicApply boost decay n fund acc h) := by
  unfold harmonicApply
  by_cases hin : fund * h < n
  · rw [if_pos hin]
    refine mulSlice_nonneg hacc ?_ _
    intro x hx
    obtain ⟨wv, hwv, rfl⟩ := List.mem_map.mp hx
    obtain ⟨hwv0, hwv1⟩ := hanningList_mem_bounds _ wv hwv
    have hbb : 0 ≤ boost * (1 / (h : ℝ) ^ decay) :=
      mul_nonneg hb (by positivity)
    nlinarith
  · rwa [if_neg hin]

theorem harmonicProcess_nonneg {boost decay : ℝ} (hb : 0 ≤ boost) {m p : List ℝ}
    (hm : nonnegL m) : nonnegL (harmonicProcess boost decay m p).1 := by
  unfold harmonicProcess
  by_cases hc : 0 < min (m.length / 5) 100 ∧ 0 < argmaxIdx (m.take (min (m.length / 5) 100))
  · rw [if_pos hc]
    have : ∀ (hs : List ℕ) (acc : List ℝ), nonnegL acc →
        nonnegL (hs.foldl (harmonicApply boost decay m.length
          (argmaxIdx (m.take (min (m.length / 5) 100)))) acc) := by
      intro hs
      induction hs with
      | nil => exact fun acc h => h
      | cons a as ih => exact fun acc h => ih _ (harmonicApply_nonneg hb _ _ h a)
    exact this _ m hm
  · rw [if_neg hc]
    exact hm

/-- C9: starting from non-negative magnitudes and non-negative
configuration parameters, every built-in stage of `_process_frame` and the
magnitude output of every enhancer variant's `process` is again
non-negative. -/
theorem magnitudes_nonneg_invariant (s b k f w dr dec sens att : ℝ)
    (st : Option (List ℝ)) (m p : List ℝ) (hm : nonnegL m)
    (hs : 0 ≤ s) (hb : 0 ≤ b) (hk : 0 ≤ k) (hf : 0 ≤ f) (hdr : 0 ≤ dr) (hatt : 0 ≤ att) :
    nonnegL (noiseFloorStage s m) ∧
    nonnegL (harmonicStage b m) ∧
    nonnegL (intensityStage k m) ∧
    nonnegL (dynamicStage f m) ∧
    nonnegL (clarityStage m) ∧
    nonnegL (harmonicProcess b dec m p).1 ∧
    nonnegL (widenerProcess w m p).1 ∧
    nonnegL (exciterProcess dr m p).1 ∧
    nonnegL (transientProcess sens att st m p).1 := by
  refine ⟨?_, ?_, ?_, ?_, ?_, harmonicProcess_nonneg hb hm, hm, ?_, ?_⟩
  · intro x hx
    obtain ⟨y, hy, rfl⟩ := List.mem_map.mp hx
    have := hm y hy
    by_cases h : noiseFloorThreshold s m < y <;> simp [h, this]
  · unfold harmonicStage
    refine nonnegL_idxMap (fun j x hx => ?_) hm 0
    by_cases h : j < m.length / 2
    · rw [if_pos h]
      have hc : 0 ≤ (linspace 1 (1 / 10) (m.length / 2)).getD j 0 :=
        getD_nonneg (linspace_boost_curve_nonneg _) le_rfl j
      have : (0 : ℝ) ≤ 1 + (linspace 1 (1 / 10) (m.length / 2)).getD j 0 * b := by
        nlinarith
      exact mul_nonneg hx this
    · rwa [if_neg h]
  · intro x hx
    obtain ⟨y, hy, rfl⟩ := List.mem_map.mp hx
    exact mul_nonneg (hm y hy) hk
  · intro x hx
    obtain ⟨y, hy, rfl⟩ := List.mem_map.mp hx
    exact le_max_left 0 _
  · unfold clarityStage
    refine nonnegL_idxMap (fun j x hx => ?_) hm 0
    by_cases h : m.length / 8 ≤ j ∧ j < m.length / 3
    · rw [if_pos h]
      nlinarith
    · rwa [if_neg h]
  · unfold exciterProcess
    refine nonnegL_idxMap (fun j x hx => ?_) ?_ 0
    · by_cases h : (m.map fun x => Real.tanh (x * dr) / dr).length / 8 ≤ j ∧
          j < (m.map fun x => Real.tanh (x * dr) / dr).length / 2
      · rw [if_pos h]
        nlinarith
      · rwa [if_neg h]
    · intro x hx
      obtain ⟨y, hy, rfl⟩ := List.mem_map.mp hx
      have hy0 : 0 ≤ y * dr := mul_nonneg (hm y hy) hdr
      have htanh : 0 ≤ Real.tanh (y * dr) := by
        rw [Real.tanh_eq_sinh_div_cosh]
        exact div_nonneg (Real.sinh_nonneg_iff.mpr hy0) (Real.cosh_pos _).le
      exact div_nonneg htanh hdr
  · unfold transientProcess
    cases st with
    | none => exact hm
    | some pm =>
      refine nonnegL_zipWith_mul hm ?_
      intro x hx
      obtain ⟨y, hy, rfl⟩ := List.mem_map.mp hx
      by_cases h : ((List.zipWith (· - ·) m pm).map (max 0)).sum /
          ((List.zipWith (· - ·) m pm).map (max 0)).length * (1 + sens * 5) < y
      · rw [if_pos h]
        linarith
      · rw [if_neg h]
        norm_num

/-- Witness for `magnitudes_nonneg_invariant` at a concrete instance. -/
theorem magnitudes_nonneg_invariant_witness :
    nonnegL (noiseFloorStage 1 [(1 : ℝ), 2]) ∧
    nonnegL (harmonicStage 1 [(1 : ℝ), 2]) ∧
    nonnegL (intensityStage 1 [(1 : ℝ), 2]) ∧
    nonnegL (dynamicStage 1 [(1 : ℝ), 2]) ∧
    nonnegL (clarityStage [(1 : ℝ), 2]) ∧
    nonnegL (harmonicProcess 1 (1 / 2) [(1 : ℝ), 2] [0, 0]).1 ∧
    nonnegL (widenerProcess 1 [(1 : ℝ), 2] [0, 0]).1 ∧
    nonnegL (exciterProcess 1 [(1 : ℝ), 2] [0, 0]).1 ∧
    nonnegL (transientProcess 0 2 none [(1 : ℝ), 2] [0, 0]).1 := by
  refine magnitudes_nonneg_invariant 1 1 1 1 1 1 (1 / 2) 0 2 none [(1 : ℝ), 2] [0, 0]
    ?_ (by norm_num) (by norm_num) (by norm_num) (by norm_num) (by norm_num) (by norm_num)
  intro x hx
  rcases List.mem_cons.mp hx with rfl | hx
  · norm_num
  · rcases List.mem_singleton.mp hx with rfl
    norm_num

/-- C3 counterexample: constructing with clearly invalid (negative)
parameters is not rejected — `__init__` returns a normally constructed
object — and the negative-frame-size error is raised inside the
processing call (by `np.pad`), not at construction time. -/
theorem construction_accepts_invalid_params :
    mkAudioUpscaler (-1) (-1) (-1) (-1) false = .ok ⟨-1, -1, -1, -1, false⟩ ∧
    processChannelChecked ⟨3/2, 3/10, 1/5, 6/5, true⟩ [] [1, 1] (-4) 1
      = .error .negativePadWidth := by
  exact ⟨rfl, by norm_num [processChannelChecked]⟩

/-! ## C5: the analysis/synthesis round trip -/

theorem omega_pow_self (N : ℕ) (hN : N ≠ 0) :
    Complex.exp (2 * Real.pi * Complex.I / N) ^ N = 1 := by
  rw [← Complex.exp_nat_mul]
  rw [mul_div_cancel₀ _ (by exact_mod_cast hN : (N : ℂ) ≠ 0)]
  exact Complex.exp_two_pi_mul_I

theorem exp_neg_kernel (N k n : ℕ) :
    Complex.exp (-(2 * Real.pi * Complex.I) * ((k : ℂ) * (n : ℂ)) / N)
      = (Complex.exp (2 * Real.pi * Complex.I / N))⁻¹ ^ (k * n) := by
  rw [← Complex.exp_neg, ← Complex.exp_nat_mul]
  congr 1
  push_cast
  ring

theorem exp_pos_kernel (N k m : ℕ) :
    Complex.exp (2 * Real.pi * Complex.I * ((k : ℂ) * (m : ℂ)) / N)
      = Complex.exp (2 * Real.pi * Complex.I / N) ^ (k * m) := by
  rw [← Complex.exp_nat_mul]
  congr 1
  push_cast
  ring

theorem geom_sum_omega (N : ℕ) (hN : 0 < N) (a b : ℕ) (ha : a < N) (hb : b < N) :
    ∑ k ∈ Finset.range N,
        (Complex.exp (2 * Real.pi * Complex.I / N) ^ a *
          (Complex.exp (2 * Real.pi * Complex.I / N))⁻¹ ^ b) ^ k
      = if a = b then (N : ℂ) else 0 := by
  set ω := Complex.exp (2 * Real.pi * Complex.I / N) with hω
  have hω0 : ω ≠ 0 := Complex.exp_ne_zero _
  by_cases hab : a = b
  · subst hab
    rw [if_pos rfl, inv_pow, mul_inv_cancel₀ (pow_ne_zero _ hω0)]
    simp
  · rw [if_neg hab]
    set z := ω ^ a * ω⁻¹ ^ b with hz
    have hzN : z ^ N = 1 := by
      rw [hz, mul_pow, ← pow_right_comm, ← pow_right_comm ω⁻¹, inv_pow ω N,
        omega_pow_self N hN.ne', inv_one, one_pow, one_pow, one_mul]
    have hz1 : z ≠ 1 := by
      intro h
      apply hab
      refine (Complex.isPrimitiveRoot_exp N hN.ne').pow_inj ha hb ?_
      have : ω ^ a * (ω ^ b)⁻¹ = 1 := by rwa [← inv_pow]
      rwa [mul_inv_eq_one₀ (pow_ne_zero _ hω0)] at this
    rw [geom_sum_eq hz1, hzN, sub_self, zero_div]

theorem sum_rfftBin_kernel (xs : List ℝ) (m : ℕ) (hm : m < xs.length) :
    ∑ k ∈ Finset.range xs.length,
        rfftBin xs k * Complex.exp (2 * Real.pi * Complex.I * ((k : ℂ) * (m : ℂ)) / xs.length)
      = (xs.length : ℂ) * (xs.getD m 0 : ℂ) := by
  set N := xs.length with hN
  have hNpos : 0 < N := by omega
  calc
    ∑ k ∈ Finset.range N,
        rfftBin xs k * Complex.exp (2 * Real.pi * Complex.I * ((k : ℂ) * (m : ℂ)) / N)
      = ∑ k ∈ Finset.range N, ∑ n ∈ Finset.range N,
          (xs.getD n 0 : ℂ) *
            ((Complex.exp (2 * Real.pi * Complex.I / N))⁻¹ ^ (k * n) *
              Complex.exp (2 * Real.pi * Complex.I / N) ^ (k * m)) := by
        refine Finset.sum_congr rfl fun k _ => ?_
        rw [rfftBin, Finset.sum_mul]
        refine Finset.sum_congr rfl fun n _ => ?_
        rw [exp_neg_kernel, exp_pos_kernel]
        ring
    _ = ∑ n ∈ Finset.range N, (xs.getD n 0 : ℂ) *
          ∑ k ∈ Finset.range N,
            (Complex.exp (2 * Real.pi * Complex.I / N) ^ m *
              (Complex.exp (2 * Real.pi * Complex.I / N))⁻¹ ^ n) ^ k := by
        rw [Finset.sum_comm]
        refine Finset.sum_congr rfl fun n _ => ?_
        rw [Finset.mul_sum]
        refine Finset.sum_congr rfl fun k _ => ?_
        rw [mul_pow, pow_mul', pow_mul']
        ring
    _ = ∑ n ∈ Finset.range N, (xs.getD n 0 : ℂ) * (if m = n then (N : ℂ) else 0) := by
        refine Finset.sum_congr rfl fun n hn => ?_
        rw [geom_sum_omega N hNpos m n hm (Finset.mem_range.mp hn)]
    _ = (N : ℂ) * (xs.getD m 0 : ℂ) := by
        rw [Finset.sum_eq_single m]
        · rw [if_pos rfl, mul_comm]
        · intro n _ hnm
          rw [if_neg fun h => hnm h.symm, mul_zero]
        · intro h
          exact absurd (Finset.mem_range.mpr hm) h

theorem conj_rfftBin (xs : List ℝ) (k : ℕ) (hk : k ≤ xs.length) (hN : xs.length ≠ 0) :
    (starRingEnd ℂ) (rfftBin xs (xs.length - k)) = rfftBin xs k := by
  set N := xs.length with hNdef
  set ω := Complex.exp (2 * Real.pi * Complex.I / N) with hω
  have hω0 : ω ≠ 0 := Complex.exp_ne_zero _
  rw [rfftBin, map_sum]
  refine Finset.sum_congr rfl fun n hn => ?_
  rw [map_mul, Complex.conj_ofReal]
  congr 1
  rw [← Complex.exp_conj]
  have hconj : (starRingEnd ℂ) (-(2 * Real.pi * Complex.I) * (((N - k : ℕ) : ℂ) * (n : ℂ)) / N)
      = 2 * Real.pi * Complex.I * (((N - k : ℕ) : ℂ) * (n : ℂ)) / N := by
    rw [map_div₀, map_mul, map_neg, map_mul, map_mul, map_mul]
    rw [Complex.conj_I, map_natCast, map_natCast, map_natCast, map_ofNat, Complex.conj_ofReal]
    ring
  rw [hconj, exp_pos_kernel N (N - k) n, exp_neg_kernel N k n]
  have hsum : ω ^ ((N - k) * n) * ω ^ (k * n) = 1 := by
    rw [← pow_add, ← Nat.add_mul, Nat.sub_add_cancel hk, pow_mul, hω,
      omega_pow_self N hN, one_pow]
  rw [inv_pow]
  exact eq_inv_of_mul_eq_one_left hsum

theorem rfft_length (xs : List ℝ) : (rfft xs).length = xs.length / 2 + 1 := by
  simp [rfft]

theorem getD_map_range {c : ℕ} (f : ℕ → ℂ) (k : ℕ) (hk : k < c) :
    ((List.range c).map f).getD k 0 = f k := by
  rw [List.getD_eq_getElem _ _ (by simpa using hk), List.getElem_map, List.getElem_range]

theorem irfft_rfft (xs : List ℝ) (M : ℕ) (hM : 0 < M) (hlen : xs.length = 2 * M) :
    irfft (rfft xs) = xs := by
  have hys : (rfft xs).length = M + 1 := by
    rw [rfft_length, hlen, Nat.mul_div_cancel_left M (by norm_num)]
  have hNN : 2 * ((rfft xs).length - 1) = xs.length := by
    rw [hys, hlen]
    omega
  have hhalf : xs.length / 2 = M := by
    rw [hlen]
    omega
  have hherm : ∀ k < xs.length, hermBin (rfft xs) xs.length k = rfftBin xs k := by
    intro k hk
    unfold hermBin
    by_cases hkM : k < (rfft xs).length
    · rw [if_pos hkM]
      rw [hys] at hkM
      rw [rfft, getD_map_range _ k (by rw [hhalf]; omega)]
    · rw [if_neg hkM]
      push_neg at hkM
      rw [hys] at hkM
      rw [rfft, getD_map_range _ _
        (show xs.length - k < xs.length / 2 + 1 by rw [hhalf]; omega)]
      exact conj_rfftBin xs k (le_of_lt hk) (by omega)
  have hcast : ((2 * ((rfft xs).length - 1) : ℕ) : ℂ) = (xs.length : ℂ) := by
    rw [hNN]
  unfold irfft
  refine List.ext_getElem (by simpa using hNN) fun m hm hm' => ?_
  rw [List.getElem_map, List.getElem_range]
  have hmxs : m < xs.length := hm'
  have hsum : ∑ k ∈ Finset.range (2 * ((rfft xs).length - 1)),
      hermBin (rfft xs) (2 * ((rfft xs).length - 1)) k *
        Complex.exp (2 * Real.pi * Complex.I * ((k : ℂ) * (m : ℂ)) /
          ((2 * ((rfft xs).length - 1) : ℕ) : ℂ))
      = (xs.length : ℂ) * (xs.getD m 0 : ℂ) := by
    rw [hcast]
    calc
      ∑ k ∈ Finset.range (2 * ((rfft xs).length - 1)),
          hermBin (rfft xs) (2 * ((rfft xs).length - 1)) k *
            Complex.exp (2 * Real.pi * Complex.I * ((k : ℂ) * (m : ℂ)) / (xs.length : ℂ))
        = ∑ k ∈ Finset.range xs.length,
            rfftBin xs k * Complex.exp (2 * Real.pi * Complex.I * ((k : ℂ) * (m : ℂ)) /
              (xs.length : ℂ)) := by
          rw [hNN]
          exact Finset.sum_congr rfl fun k hk => by
            rw [hherm k (Finset.mem_range.mp hk)]
      _ = (xs.length : ℂ) * (xs.getD m 0 : ℂ) := sum_rfftBin_kernel xs m hmxs
  rw [hsum]
  have hne : ((xs.length : ℕ) : ℂ) ≠ 0 := by
    exact_mod_cast (by omega : xs.length ≠ 0)
  rw [hcast, ← mul_assoc, inv_mul_cancel₀ hne, one_mul, Complex.ofReal_re]
  exact List.getD_eq_getElem xs 0 hm'

theorem zipWith_map_same {α β γ δ : Type} (f : α → β) (g : α → γ) (h : β → γ → δ)
    (l : List α) : List.zipWith h (l.map f) (l.map g) = l.map fun x => h (f x) (g x) := by
  induction l with
  | nil => rfl
  | cons a as ih => simp [ih]

theorem recombine_rfft (xs : List ℝ) :
    List.zipWith (fun mag ph : ℝ => (mag : ℂ) * Complex.exp (Complex.I * (ph : ℂ)))
      ((rfft xs).map Complex.abs) ((rfft xs).map Complex.arg) = rfft xs := by
  rw [zipWith_map_same]
  conv_rhs => rw [← List.map_id (rfft xs)]
  refine List.map_congr_left fun z _ => ?_
  rw [mul_comm Complex.I _]
  exact Complex.abs_mul_exp_arg_mul_I z

/-- C5: analysis (real FFT, magnitude = absolute value, phase = angle)
followed immediately by synthesis (`magnitude * exp(i*phase)`, inverse
real FFT) with no intermediate modification reproduces the original frame
exactly (the exact-arithmetic form of "within floating-point tolerance");
stated for the even frame lengths `2*M` on which `np.fft.irfft`'s default
output length matches the input frame. -/
theorem analyze_synthesize_roundtrip (xs : List ℝ) (M : ℕ) (hM : 0 < M)
    (hlen : xs.length = 2 * M) : synthesize (analyze xs) = xs := by
  unfold synthesize analyze
  rw [recombine_rfft]
  exact irfft_rfft xs M hM hlen

/-- Witness for `analyze_synthesize_roundtrip` on a concrete frame. -/
theorem analyze_synthesize_roundtrip_witness :
    synthesize (analyze [(1 : ℝ), 2, 3, 4]) = [(1 : ℝ), 2, 3, 4] :=
  analyze_synthesize_roundtrip [(1 : ℝ), 2, 3, 4] 2 (by norm_num) (by norm_num)

/-! ## The channel pipeline on a concrete no-op run -/

theorem processFrame_noop (frame : List ℝ) (M : ℕ) (hM : 0 < M)
    (hlen : frame.length = 2 * M) :
    processFrame ⟨1, 0, 0, 1, false⟩ [] frame = (frame, []) := by
  unfold processFrame intensityStage
  simp only [lt_self_iff_false, if_false, ne_eq, not_true_eq_false, Bool.false_eq_true,
    List.isEmpty_nil, if_true, ite_false, ite_true, mul_one, List.map_id, List.map_id']
  rw [recombine_rfft, irfft_rfft frame M hM hlen]

theorem reflectIdx_lt (L : ℕ) (p : ℤ) (hL : 0 < L) : reflectIdx L p < L := by
  unfold reflectIdx
  by_cases h1 : L ≤ 1
  · rw [if_pos h1]
    exact hL
  · rw [if_neg h1]
    push_neg at h1
    have hP : (0 : ℤ) < 2 * ((L : ℤ) - 1) := by
      have : (2 : ℤ) ≤ (L : ℤ) := by exact_mod_cast h1
      linarith
    have hmod : p % (2 * ((L : ℤ) - 1)) < 2 * ((L : ℤ) - 1) := Int.emod_lt_of_pos p hP
    have hnn : 0 ≤ p % (2 * ((L : ℤ) - 1)) := Int.emod_nonneg p (ne_of_gt hP)
    have hmN : (p % (2 * ((L : ℤ) - 1))).toNat < 2 * (L - 1) := by
      have h2 : ((2 * (L - 1) : ℕ) : ℤ) = 2 * ((L : ℤ) - 1) := by
        push_cast [Nat.cast_sub (by omega : 1 ≤ L)]
        ring
      omega
    by_cases h2 : (p % (2 * ((L : ℤ) - 1))).toNat ≤ L - 1
    · rw [if_pos h2]
      omega
    · rw [if_neg h2]
      omega

theorem getD_replicate {c : ℝ} {L i : ℕ} (hi : i < L) :
    (List.replicate L c).getD i 0 = c := by
  rw [List.getD_eq_getElem _ _ (by simpa using hi), List.getElem_replicate]

theorem reflectPad_replicate (L F : ℕ) (c : ℝ) (hL : 0 < L) :
    reflectPad (List.replicate L c) F = List.replicate (L + 2 * F) c := by
  unfold reflectPad
  rw [List.length_replicate]
  have h1 : List.map
        (fun p : ℕ => (List.replicate L c).getD (reflectIdx L ((p : ℤ) - (F : ℤ))) 0)
        (List.range (L + 2 * F))
      = List.map (fun _ : ℕ => c) (List.range (L + 2 * F)) :=
    List.map_congr_left fun p _ => getD_replicate (reflectIdx_lt L _ hL)
  rw [h1, List.map_const', List.length_range]

theorem maxAbs_replicate (n : ℕ) (c : ℝ) (hc : 0 ≤ c) (hn : 0 < n) :
    maxAbs (List.replicate n c) = c := by
  induction n with
  | zero => omega
  | succ k ih =>
    rw [List.replicate_succ]
    unfold maxAbs
    rw [List.foldr_cons]
    rcases Nat.eq_zero_or_pos k with hk | hk
    · subst hk
      simp [abs_of_nonneg hc, max_eq_left hc]
    · have : List.foldr (fun x acc => max |x| acc) 0 (List.replicate k c) = c := ih hk
      rw [this, abs_of_nonneg hc, max_self]

theorem maxAbs_map_mul (l : List ℝ) (g : ℝ) (hg : 0 ≤ g) :
    maxAbs (l.map fun x => x * g) = maxAbs l * g := by
  induction l with
  | nil => simp [maxAbs]
  | cons x xs ih =>
    unfold maxAbs at ih ⊢
    rw [List.map_cons, List.foldr_cons, List.foldr_cons, ih, abs_mul, abs_of_nonneg hg,
      max_mul_of_nonneg _ _ hg]

theorem addInto_length (acc vs : List ℝ) : (addInto acc vs).length = acc.length := by
  induction acc generalizing vs with
  | nil => cases vs <;> rfl
  | cons a as ih =>
    cases vs with
    | nil => rfl
    | cons v vs' => simp [addInto, ih]

theorem addAt_length (acc : List ℝ) (i : ℕ) (vs : List ℝ) :
    (addAt acc i vs).length = acc.length := by
  unfold addAt
  rw [List.length_append, List.length_take, addInto_length, List.length_drop]
  omega

theorem channelAccum_acc_length (u : UpscalerParams) (chain : List Enhancer) (xs : List ℝ)
    (F H : ℕ) : (channelAccum u chain xs F H).1.length = xs.length + 2 * F := by
  unfold channelAccum
  have hpadlen : (reflectPad xs F).length = xs.length + 2 * F := by
    unfold reflectPad
    rw [List.length_map, List.length_range]
  have hfold : ∀ (os : List ℕ) (st : List ℝ × List Enhancer),
      (os.foldl (channelStep u F (reflectPad xs F)) st).1.length = st.1.length := by
    intro os
    induction os with
    | nil => intro st; rfl
    | cons o os' ih =>
      intro st
      rw [List.foldl_cons, ih]
      unfold channelStep
      exact addAt_length _ _ _
  rw [hfold, List.length_replicate, hpadlen]

/-- C2 (amended): the channel pipeline always returns a list of the same
length as its input channel — padding adds `2*frame_size` samples, the
accumulator keeps the padded length through every overlap-add, and
unpadding strips exactly the added samples; the peak normalisation is a
`map`.  (The sample *values*, however, are rescaled by the peak
normalisation; see the counterexample.) -/
theorem processChannel_preserves_length (u : UpscalerParams) (chain : List Enhancer)
    (xs : List ℝ) (F H : ℕ) :
    (processChannel u chain xs F H).1.length = xs.length := by
  have hacc := channelAccum_acc_length u chain xs F H
  simp only [processChannel, channelBeforeNorm]
  split
  · rw [List.length_map, List.length_drop, List.length_take, List.length_map, hacc]
    omega
  · rw [List.length_drop, List.length_take, List.length_map, hacc]
    omega

theorem hanningList_four : hanningList 4 = [0, 3 / 4, 3 / 4, 0] := by
  have hc23 : Real.cos (2 * Real.pi / 3) = -(1 / 2) := by
    rw [show 2 * Real.pi / 3 = Real.pi - Real.pi / 3 by ring, Real.cos_pi_sub,
      Real.cos_pi_div_three]
  unfold hanningList
  rw [if_neg (by norm_num)]
  rw [show List.range 4 = [0, 1, 2, 3] from rfl]
  simp only [List.map_cons, List.map_nil]
  norm_num
  constructor
  · rw [hc23]
    norm_num
  · rw [show 2 * Real.pi * 2 / 3 = 2 * Real.pi - 2 * Real.pi / 3 by ring,
      Real.cos_two_pi_sub, hc23]
    norm_num

theorem noop_windowed_frame :
    List.zipWith (· * ·) (List.replicate 4 ((1 : ℝ) / 10)) (hanningList 4)
      = [0, 3 / 40, 3 / 40, 0] := by
  rw [hanningList_four, show List.replicate 4 ((1 : ℝ) / 10)
    = [1 / 10, 1 / 10, 1 / 10, 1 / 10] from rfl]
  norm_num [List.zipWith]

theorem noop_frame_slice (i : ℕ) (hi : i ≤ 8) :
    ((List.replicate 12 ((1 : ℝ) / 10)).drop i).take 4 = List.replicate 4 ((1 : ℝ) / 10) := by
  rw [List.drop_replicate, List.take_replicate]
  congr 1
  omega

theorem noop_processFrame_slice :
    processFrame ⟨1, 0, 0, 1, false⟩ [] (List.replicate 4 ((1 : ℝ) / 10))
      = (List.replicate 4 ((1 : ℝ) / 10), []) :=
  processFrame_noop _ 2 (by norm_num) (by simp)

theorem noop_channelStep (acc : List ℝ) (i : ℕ) (hi : i ≤ 8) :
    channelStep ⟨1, 0, 0, 1, false⟩ 4 (List.replicate 12 ((1 : ℝ) / 10)) (acc, []) i
      = (addAt acc i [0, 3 / 40, 3 / 40, 0], []) := by
  simp only [channelStep, noop_frame_slice i hi, noop_processFrame_slice]
  rw [noop_windowed_frame]

theorem reflectPad_tenth :
    reflectPad (List.replicate 4 ((1 : ℝ) / 10)) 4 = List.replicate 12 ((1 : ℝ) / 10) := by
  have h := reflectPad_replicate 4 4 ((1 : ℝ) / 10) (by norm_num)
  norm_num at h
  exact h

theorem noop_accum :
    channelAccum ⟨1, 0, 0, 1, false⟩ [] (List.replicate 4 ((1 : ℝ) / 10)) 4 2
      = ([0, 3 / 40, 3 / 40, 3 / 40, 3 / 40, 3 / 40, 3 / 40, 3 / 40, 3 / 40, 0, 0, 0], []) := by
  simp only [channelAccum, reflectPad_tenth, List.length_replicate]
  rw [show frameOffsets 12 4 2 = [0, 2, 4, 6] from by decide]
  rw [List.foldl_cons, noop_channelStep _ 0 (by norm_num)]
  rw [List.foldl_cons, noop_channelStep _ 2 (by norm_num)]
  rw [List.foldl_cons, noop_channelStep _ 4 (by norm_num)]
  rw [List.foldl_cons, noop_channelStep _ 6 (by norm_num)]
  rw [List.foldl_nil]
  norm_num [addAt, addInto, List.replicate]

theorem noop_beforeNorm :
    channelBeforeNorm ⟨1, 0, 0, 1, false⟩ [] (List.replicate 4 ((1 : ℝ) / 10)) 4 2
      = (List.replicate 4 ((3 : ℝ) / 80), []) := by
  simp only [channelBeforeNorm, noop_accum]
  norm_num [List.replicate]

/-- C2 counterexample: with the no-op configuration (`intensity = 1`,
`harmonics_boost = 0`, `noise_reduction = 0`, `dynamic_boost = 1`,
`clarity = false`, empty chain), the constant channel `[0.1, 0.1, 0.1,
0.1]` (frame size 4, hop 2) is returned as `[0.95, 0.95, 0.95, 0.95]`:
the final peak normalisation rescales the whole channel to peak `0.95`,
so the output samples are nowhere near the corresponding input samples. -/
theorem noop_channel_rescales_cex :
    (processChannel ⟨1, 0, 0, 1, false⟩ [] (List.replicate 4 ((1 : ℝ) / 10)) 4 2).1
      = List.replicate 4 ((19 : ℝ) / 20) ∧
    ¬ |(19 : ℝ) / 20 - 1 / 10| ≤ 1 / 2 := by
  constructor
  · simp only [processChannel, noop_beforeNorm]
    rw [maxAbs_replicate 4 (3 / 80) (by norm_num) (by norm_num)]
    rw [if_pos (by norm_num : (0 : ℝ) < 3 / 80)]
    rw [List.map_replicate]
    norm_num
  · rw [abs_of_pos (by norm_num : (0 : ℝ) < 19 / 20 - 1 / 10)]
    norm_num

/-! ## C6: peak normalisation -/

/-- C6: whenever the accumulated (pre-normalisation) channel output has a
strictly positive peak, the returned channel output has peak exactly
`0.95` — the final stage multiplies the whole channel by `0.95 / peak`. -/
theorem peak_normalization_hits_target (u : UpscalerParams) (chain : List Enhancer)
    (xs : List ℝ) (F H : ℕ)
    (h : 0 < maxAbs (channelBeforeNorm u chain xs F H).1) :
    maxAbs (processChannel u chain xs F H).1 = 19 / 20 := by
  simp only [processChannel]
  rw [if_pos h]
  rw [maxAbs_map_mul _ _ (le_of_lt (div_pos (by norm_num) h))]
  rw [mul_comm, div_mul_cancel₀ _ (ne_of_gt h)]

/-- Witness for `peak_normalization_hits_target` on the concrete no-op
run, whose pre-normalisation output `[3/80, 3/80, 3/80, 3/80]` is
non-silent. -/
theorem peak_normalization_hits_target_witness :
    maxAbs (processChannel ⟨1, 0, 0, 1, false⟩ [] (List.replicate 4 ((1 : ℝ) / 10)) 4 2).1
      = 19 / 20 := by
  refine peak_normalization_hits_target _ _ _ _ _ ?_
  rw [noop_beforeNorm]
  rw [maxAbs_replicate 4 (3 / 80) (by norm_num) (by norm_num)]
  norm_num

/-! ## C1: enhancer state across stereo channels -/

theorem applyEnhancerChain_single_transient (m p : List ℝ) (s a : ℝ)
    (st : Option (List ℝ)) :
    applyEnhancerChain m p [Enhancer.transient s a st]
      = ((transientProcess s a st m p).1, (transientProcess s a st m p).2.1,
        [Enhancer.transient s a (some m)]) := by
  cases st <;> rfl

theorem processFrame_single_transient (u : UpscalerParams) (fr : List ℝ) (s a : ℝ)
    (st : Option (List ℝ)) :
    ∃ l, (processFrame u [Enhancer.transient s a st] fr).2
      = [Enhancer.transient s a (some l)] := by
  simp only [processFrame, List.isEmpty_cons, Bool.false_eq_true, if_false,
    applyEnhancerChain_single_transient, ite_false]
  exact ⟨_, rfl⟩

theorem foldl_transient_leaks (u : UpscalerParams) (F : ℕ) (padded : List ℝ) :
    ∀ os : List ℕ, os ≠ [] → ∀ (acc : List ℝ) (s a : ℝ) (st : Option (List ℝ)),
      ∃ l, (os.foldl (channelStep u F padded) (acc, [Enhancer.transient s a st])).2
        = [Enhancer.transient s a (some l)] := by
  intro os
  induction os with
  | nil => exact fun h => absurd rfl h
  | cons o os' ih =>
    intro _ acc s a st
    rw [List.foldl_cons]
    obtain ⟨l1, hl1⟩ := processFrame_single_transient u ((padded.drop o).take F) s a st
    have hstep : channelStep u F padded (acc, [Enhancer.transient s a st]) o
        = (addAt acc o (List.zipWith (· * ·)
            (processFrame u [Enhancer.transient s a st] ((padded.drop o).take F)).1
            (hanningList F)), [Enhancer.transient s a (some l1)]) := by
      simp only [channelStep]
      rw [hl1]
    rw [hstep]
    rcases os' with _ | ⟨o2, os''⟩
    · rw [List.foldl_nil]
      exact ⟨l1, rfl⟩
    · exact ih (by simp) _ s a (some l1)

/-- C1 (state leak, contradicting the spec's isolation requirement): in the
stereo dispatch the right channel is processed with the enhancer-chain
state that the left channel's run left behind (first conjunct, by the very
definition of the stereo path, which reuses `self.enhancer_chain`), and
that state is *not* fresh: after the left run the transient enhancer's
`_prev_magnitudes` holds the left channel's last-frame magnitudes instead
of `None` (second conjunct, on a concrete stereo input). -/
theorem transient_state_leaks_across_channels :
    processAudioStereo ⟨1, 0, 0, 1, false⟩ [Enhancer.transient (1 / 2) 2 none]
        (List.replicate 4 ((1 : ℝ) / 10)) (List.replicate 4 ((1 : ℝ) / 10)) 4 2
      = ((processChannel ⟨1, 0, 0, 1, false⟩ [Enhancer.transient (1 / 2) 2 none]
            (List.replicate 4 ((1 : ℝ) / 10)) 4 2).1.zip
          (processChannel ⟨1, 0, 0, 1, false⟩
            (processChannel ⟨1, 0, 0, 1, false⟩ [Enhancer.transient (1 / 2) 2 none]
              (List.replicate 4 ((1 : ℝ) / 10)) 4 2).2
            (List.replicate 4 ((1 : ℝ) / 10)) 4 2).1,
         (processChannel ⟨1, 0, 0, 1, false⟩
            (processChannel ⟨1, 0, 0, 1, false⟩ [Enhancer.transient (1 / 2) 2 none]
              (List.replicate 4 ((1 : ℝ) / 10)) 4 2).2
            (List.replicate 4 ((1 : ℝ) / 10)) 4 2).2) ∧
    (processChannel ⟨1, 0, 0, 1, false⟩ [Enhancer.transient (1 / 2) 2 none]
        (List.replicate 4 ((1 : ℝ) / 10)) 4 2).2
      ≠ [Enhancer.transient (1 / 2) 2 none] := by
  constructor
  · rfl
  · intro hcontra
    obtain ⟨l, hl⟩ := foldl_transient_leaks ⟨1, 0, 0, 1, false⟩ 4
      (List.replicate 12 ((1 : ℝ) / 10)) [0, 2, 4, 6] (by simp)
      (List.replicate 12 0) (1 / 2) 2 none
    have h2 : (processChannel ⟨1, 0, 0, 1, false⟩ [Enhancer.transient (1 / 2) 2 none]
        (List.replicate 4 ((1 : ℝ) / 10)) 4 2).2
        = [Enhancer.transient (1 / 2) 2 (some l)] := by
      simp only [processChannel, channelBeforeNorm, channelAccum, reflectPad_tenth,
        List.length_replicate]
      rw [show frameOffsets 12 4 2 = [0, 2, 4, 6] from by decide]
      exact hl
    rw [h2] at hcontra
    simp at hcontra

end

end AudioUpscale
